import Mathlib

/-!
# Verification of `pagerank.py`

A shallow embedding of the PageRank program (`src/pagerank.py`) and proofs
about it. Python dictionaries keyed by pages become a `Finset` of keys plus
a value function; Python float arithmetic is modelled by exact rational
arithmetic (`ℚ`); Python runtime errors (`KeyError`, `ZeroDivisionError`,
`IndexError`) are modelled by `Option.none`; the two sources of randomness
in `sample_pagerank` (`random.choice`, `random.choices`) are modelled by
explicitly passed choice oracles, so that properties can be stated for
every outcome of the random draws; the unbounded `while` loop of
`iterate_pagerank` is modelled with an explicit fuel parameter, `none`
meaning the loop has not yet exited within the given fuel.
-/

set_option maxHeartbeats 1600000

/-- A corpus (the Python `corpus` dict): the set of pages (the dict's keys)
together with, for each page, the set of pages it links to (the dict's
values). The value function is only meaningful on `pages`. -/
structure Corpus (α : Type) where
  pages : Finset α
  out : α → Finset α

/-- A dictionary from pages to rationals, as returned by `transition_model`,
`sample_pagerank` and `iterate_pagerank`: the key set plus the value
function (only meaningful on `keys`). -/
structure ProbDict (α : Type) where
  keys : Finset α
  val : α → ℚ

/-- The sum of the values of a probability dict over its keys. -/
def ProbDict.total {α : Type} [DecidableEq α] (d : ProbDict α) : ℚ :=
  ∑ p in d.keys, d.val p

variable {α : Type} [DecidableEq α]

/-- Embedding of `transition_model(corpus, page, damping_factor)`
(src/pagerank.py lines 51-79).  `corpus[page]` raises `KeyError` when
`page` is not a key, modelled by `none`.  In the Python code the dict
entry for `page` is first set to `p_corpus` and then overwritten with
`p_page` if `page` happens to be among its own transitions, which the
conditional on `p ∈ transitions` reproduces. -/
def transition_model (corpus : Corpus α) (page : α) (damping_factor : ℚ) :
    Option (ProbDict α) :=
  if page ∈ corpus.pages then
    let transitions := corpus.out page
    if transitions.card = 0 then
      some ⟨corpus.pages, fun _ => 1 / corpus.pages.card⟩
    else
      let p_corpus : ℚ := (1 - damping_factor) / (transitions.card + 1)
      let p_page : ℚ := damping_factor / transitions.card + p_corpus
      some ⟨insert page transitions,
            fun p => if p ∈ transitions then p_page else p_corpus⟩
  else none

/-- C9: for every graph and every page identifier that is not a key of the
graph, `transition_model` fails (the `corpus[page]` lookup raises
`KeyError`, the InvalidPage contract violation) and returns no
distribution. -/
theorem transition_model_invalid_page (corpus : Corpus α) (page : α)
    (damping : ℚ) (h : page ∉ corpus.pages) :
    transition_model corpus page damping = none := by
  simp [transition_model, h]

/-- A concrete two-page corpus 0 → {1}, 1 → ∅, used to instantiate
theorems with hypotheses. -/
def corpusAB : Corpus ℕ :=
  ⟨{0, 1}, fun p => if p = 0 then {1} else ∅⟩

/-- Witness for C9 at a concrete input: page 7 is not in `corpusAB`. -/
theorem transition_model_invalid_page_witness :
    transition_model corpusAB 7 (17/20) = none :=
  transition_model_invalid_page corpusAB 7 (17/20) (by decide)

/-- C1: for a page of the graph (the graph satisfying the no-self-link
invariant of the data model), `transition_model` returns: if the page has
no outbound links, the uniform distribution `1/N` over all pages of the
graph; if it has `k ≥ 1` outbound links, a distribution whose keys are
exactly the page itself and its linked pages, giving the page
`(1-d)/(k+1)` and each linked page `d/k + (1-d)/(k+1)`. -/
theorem transition_model_spec (corpus : Corpus α) (page : α) (d : ℚ)
    (hp : page ∈ corpus.pages) (hself : page ∉ corpus.out page) :
    ∃ dist, transition_model corpus page d = some dist ∧
      ((corpus.out page = ∅ →
          dist.keys = corpus.pages ∧
          ∀ p ∈ corpus.pages, dist.val p = 1 / corpus.pages.card) ∧
       (∀ k : ℕ, (corpus.out page).card = k → 1 ≤ k →
          dist.keys = insert page (corpus.out page) ∧
          dist.val page = (1 - d) / (k + 1) ∧
          ∀ p ∈ corpus.out page,
            dist.val p = d / k + (1 - d) / (k + 1))) := by
  by_cases hz : (corpus.out page).card = 0
  · refine ⟨⟨corpus.pages, fun _ => 1 / corpus.pages.card⟩, ?_, ?_, ?_⟩
    · simp [transition_model, hp, hz]
    · exact fun _ => ⟨rfl, fun p _ => rfl⟩
    · intro k hk hk1
      omega
  · refine ⟨⟨insert page (corpus.out page), fun p =>
        if p ∈ corpus.out page then
          d / (corpus.out page).card +
            (1 - d) / ((corpus.out page).card + 1)
        else (1 - d) / ((corpus.out page).card + 1)⟩, ?_, ?_, ?_⟩
    · simp only [transition_model, if_pos hp]
      rw [if_neg hz]
    · intro habs
      exact absurd (by rw [habs]; simp) hz
    · intro k hk hk1
      refine ⟨rfl, ?_, ?_⟩
      · simp only [hk, if_neg hself]
      · intro p hmem
        simp only [hk, if_pos hmem]

/-- Witness for C1 at a concrete input: page 0 of `corpusAB` is in the
corpus and does not link to itself. -/
theorem transition_model_spec_witness :
    ∃ dist, transition_model corpusAB 0 (17/20) = some dist ∧
      ((corpusAB.out 0 = ∅ →
          dist.keys = corpusAB.pages ∧
          ∀ p ∈ corpusAB.pages, dist.val p = 1 / corpusAB.pages.card) ∧
       (∀ k : ℕ, (corpusAB.out 0).card = k → 1 ≤ k →
          dist.keys = insert 0 (corpusAB.out 0) ∧
          dist.val 0 = (1 - 17/20) / (k + 1) ∧
          ∀ p ∈ corpusAB.out 0,
            dist.val p = (17/20) / k + (1 - 17/20) / (k + 1))) :=
  transition_model_spec corpusAB 0 (17/20) (by decide) (by decide)

/-- C5: for a page of a well-formed graph (no self-links, all linked pages
present as keys) and a damping factor in (0,1), the distribution returned
by `transition_model` sums to 1 within 1e-9 (in this rational model, the
sum is exactly 1). -/
theorem transition_model_sums_to_one (corpus : Corpus α) (page : α) (d : ℚ)
    (hp : page ∈ corpus.pages)
    (hself : ∀ p ∈ corpus.pages, p ∉ corpus.out p)
    (hclosed : ∀ p ∈ corpus.pages, corpus.out p ⊆ corpus.pages)
    (hd0 : 0 < d) (hd1 : d < 1) :
    ∃ dist, transition_model corpus page d = some dist ∧
      |dist.total - 1| ≤ 1 / 1000000000 := by
  have hN : (0 : ℚ) < corpus.pages.card := by
    have := Finset.card_pos.mpr ⟨page, hp⟩
    exact_mod_cast this
  by_cases hz : (corpus.out page).card = 0
  · refine ⟨⟨corpus.pages, fun _ => 1 / corpus.pages.card⟩, ?_, ?_⟩
    · simp [transition_model, hp, hz]
    · have htot : (ProbDict.total ⟨corpus.pages, fun _ =>
          1 / (corpus.pages.card : ℚ)⟩) = 1 := by
        simp only [ProbDict.total, Finset.sum_const, nsmul_eq_mul]
        field_simp
      rw [htot]
      norm_num
  · have hpage : page ∉ corpus.out page := hself page hp
    have hk : (0 : ℚ) < (corpus.out page).card := by
      have : 0 < (corpus.out page).card := Nat.pos_of_ne_zero hz
      exact_mod_cast this
    refine ⟨⟨insert page (corpus.out page), fun p =>
        if p ∈ corpus.out page then
          d / (corpus.out page).card +
            (1 - d) / ((corpus.out page).card + 1)
        else (1 - d) / ((corpus.out page).card + 1)⟩, ?_, ?_⟩
    · simp only [transition_model, if_pos hp]
      rw [if_neg hz]
    · have htot : (ProbDict.total ⟨insert page (corpus.out page), fun p =>
          if p ∈ corpus.out page then
            d / (corpus.out page).card +
              (1 - d) / ((corpus.out page).card + 1)
          else (1 - d) / ((corpus.out page).card + 1)⟩) = 1 := by
        simp only [ProbDict.total]
        rw [Finset.sum_insert hpage, if_neg hpage]
        rw [Finset.sum_congr rfl (fun p hmem => if_pos hmem)]
        rw [Finset.sum_const, nsmul_eq_mul]
        have hk1 : ((corpus.out page).card : ℚ) + 1 ≠ 0 := by positivity
        field_simp
        ring
      rw [htot]
      norm_num

/-- Witness for C5 at a concrete input: page 0 of `corpusAB`, damping
0.85. -/
theorem transition_model_sums_to_one_witness :
    ∃ dist, transition_model corpusAB 0 (17/20) = some dist ∧
      |dist.total - 1| ≤ 1 / 1000000000 :=
  transition_model_sums_to_one corpusAB 0 (17/20) (by decide) (by decide)
    (by decide) (by norm_num) (by norm_num)

/-- The sampling loop of `sample_pagerank` (src/pagerank.py lines 99-102):
`steps` remaining iterations of `for i in range(n-1)`, `idx` the current
step index, `page` the current page.  Each iteration computes the
transition model of the current page and draws the next page from it via
the oracle `pick` (modelling `random.choices(list(p.keys()),
weights=list(p.values()), k=1)[0]`); the drawn pages are accumulated in
order.  A `KeyError` inside `transition_model` propagates as `none`. -/
def sampleSteps (corpus : Corpus α) (damping_factor : ℚ)
    (pick : ℕ → ProbDict α → α) :
    ℕ → ℕ → α → Option (List α)
  | 0, _, _ => some []
  | steps + 1, idx, page =>
    match transition_model corpus page damping_factor with
    | none => none
    | some p =>
      let next := pick idx p
      (sampleSteps corpus damping_factor pick steps (idx + 1) next).map
        (next :: ·)

/-- Embedding of `sample_pagerank(corpus, damping_factor, n)`
(src/pagerank.py lines 82-108).  `first` is the outcome of
`random.choice(list(corpus.keys()))` and `pick` the outcome function of
the weighted draws; `random.choice` raises `IndexError` on an empty
corpus, modelled by `none`.  The returned dict maps every page of the
corpus to its number of occurrences in the visit sequence divided by
`n`. -/
def sample_pagerank (corpus : Corpus α) (damping_factor : ℚ) (n : ℕ)
    (first : α) (pick : ℕ → ProbDict α → α) : Option (ProbDict α) :=
  if corpus.pages = ∅ then none
  else
    match sampleSteps corpus damping_factor pick (n - 1) 0 first with
    | none => none
    | some rest =>
      let samples := first :: rest
      some ⟨corpus.pages, fun p => (samples.count p : ℚ) / n⟩

/-- For a page of a link-closed corpus, `transition_model` succeeds and
its keys are nonempty pages of the corpus. -/
theorem transition_model_keys_subset (corpus : Corpus α) (page : α) (d : ℚ)
    (hp : page ∈ corpus.pages)
    (hclosed : ∀ p ∈ corpus.pages, corpus.out p ⊆ corpus.pages) :
    ∃ dist, transition_model corpus page d = some dist ∧
      dist.keys ⊆ corpus.pages ∧ dist.keys ≠ ∅ := by
  by_cases hz : (corpus.out page).card = 0
  · refine ⟨⟨corpus.pages, fun _ => 1 / corpus.pages.card⟩, ?_, ?_, ?_⟩
    · simp [transition_model, hp, hz]
    · exact Finset.Subset.refl _
    · exact Finset.ne_empty_of_mem hp
  · refine ⟨⟨insert page (corpus.out page), fun p =>
        if p ∈ corpus.out page then
          d / (corpus.out page).card +
            (1 - d) / ((corpus.out page).card + 1)
        else (1 - d) / ((corpus.out page).card + 1)⟩, ?_, ?_, ?_⟩
    · simp only [transition_model, if_pos hp]
      rw [if_neg hz]
    · exact Finset.insert_subset hp (hclosed page hp)
    · exact Finset.ne_empty_of_mem (Finset.mem_insert_self page _)

/-- The sampling loop of a link-closed corpus, started at a page of the
corpus with an oracle that always picks a key of the distribution it is
given, succeeds, produces exactly `steps` pages, and stays inside the
corpus. -/
theorem sampleSteps_spec (corpus : Corpus α) (d : ℚ)
    (pick : ℕ → ProbDict α → α)
    (hclosed : ∀ p ∈ corpus.pages, corpus.out p ⊆ corpus.pages)
    (hpick : ∀ i dist, dist.keys ≠ ∅ → pick i dist ∈ dist.keys) :
    ∀ steps idx page, page ∈ corpus.pages →
      ∃ l, sampleSteps corpus d pick steps idx page = some l ∧
        l.length = steps ∧ ∀ x ∈ l, x ∈ corpus.pages := by
  intro steps
  induction steps with
  | zero => exact fun idx page _ => ⟨[], rfl, rfl, by simp⟩
  | succ m ih =>
    intro idx page hp
    obtain ⟨dist, hdist, hsub, hne⟩ :=
      transition_model_keys_subset corpus page d hp hclosed
    have hnext : pick idx dist ∈ corpus.pages := hsub (hpick idx dist hne)
    obtain ⟨l, hl, hlen, hmem⟩ := ih (idx + 1) (pick idx dist) hnext
    refine ⟨pick idx dist :: l, ?_, by simp [hlen], ?_⟩
    · simp only [sampleSteps, hdist, hl]
      rfl
    · intro x hx
      rcases List.mem_cons.mp hx with h | h
      · exact h ▸ hnext
      · exact hmem x h

/-- Summing the occurrence counts of a list over a finite set containing
all its elements gives the length of the list. -/
theorem sum_count_eq_length (s : Finset α) (l : List α)
    (h : ∀ x ∈ l, x ∈ s) :
    ∑ p in s, l.count p = l.length := by
  have hm : ∀ a ∈ (l : Multiset α), a ∈ s := by simpa using h
  have := Multiset.sum_count_eq_card hm
  simpa using this

/-- C6: for every nonempty link-closed graph, every damping factor, every
`n ≥ 1` and every outcome of the random draws, `sample_pagerank` returns a
dict with a value for every page of the graph, each value being the number
of occurrences of the page in the length-`n` visit sequence divided by
`n`, and the values summing to exactly 1. -/
theorem sample_pagerank_spec (corpus : Corpus α) (d : ℚ) (n : ℕ)
    (first : α) (pick : ℕ → ProbDict α → α)
    (hclosed : ∀ p ∈ corpus.pages, corpus.out p ⊆ corpus.pages)
    (hn : 1 ≤ n) (hfirst : first ∈ corpus.pages)
    (hpick : ∀ i dist, dist.keys ≠ ∅ → pick i dist ∈ dist.keys) :
    ∃ dist samples,
      sample_pagerank corpus d n first pick = some dist ∧
      sampleSteps corpus d pick (n - 1) 0 first = some samples ∧
      dist.keys = corpus.pages ∧
      (first :: samples).length = n ∧
      (∀ p ∈ corpus.pages,
        dist.val p = ((first :: samples).count p : ℚ) / n) ∧
      dist.total = 1 := by
  obtain ⟨samples, hsteps, hlen, hmem⟩ :=
    sampleSteps_spec corpus d pick hclosed hpick (n - 1) 0 first hfirst
  have hne : corpus.pages ≠ ∅ := Finset.ne_empty_of_mem hfirst
  refine ⟨⟨corpus.pages, fun p => ((first :: samples).count p : ℚ) / n⟩,
    samples, ?_, hsteps, rfl, ?_, fun p _ => rfl, ?_⟩
  · simp only [sample_pagerank, if_neg hne, hsteps]
  · simp only [List.length_cons, hlen]
    omega
  · have hall : ∀ x ∈ first :: samples, x ∈ corpus.pages := by
      intro x hx
      rcases List.mem_cons.mp hx with h | h
      · exact h ▸ hfirst
      · exact hmem x h
    have hcount := sum_count_eq_length corpus.pages (first :: samples) hall
    have hlen' : (first :: samples).length = n := by
      simp only [List.length_cons, hlen]; omega
    have hn0 : (n : ℚ) ≠ 0 := Nat.cast_ne_zero.mpr (by omega)
    simp only [ProbDict.total]
    rw [← Finset.sum_div]
    rw [show (∑ p in corpus.pages, ((first :: samples).count p : ℚ)) =
        (((first :: samples).length : ℚ)) by exact_mod_cast congrArg Nat.cast hcount]
    rw [hlen']
    field_simp

/-- The oracle used in witnesses: pick the least key of the distribution
(a valid outcome of the weighted draw). -/
def pickMin : ℕ → ProbDict ℕ → ℕ := fun _ dist =>
  if h : dist.keys.Nonempty then dist.keys.min' h else 0

/-- `pickMin` always returns a key when the key set is nonempty. -/
theorem pickMin_mem (i : ℕ) (dist : ProbDict ℕ) (h : dist.keys ≠ ∅) :
    pickMin i dist ∈ dist.keys := by
  have hne : dist.keys.Nonempty := Finset.nonempty_iff_ne_empty.mpr h
  simp only [pickMin, dif_pos hne]
  exact dist.keys.min'_mem hne

/-- Witness for C6 at a concrete input: `corpusAB`, damping 0.85, n = 3,
first page 0, least-key oracle. -/
theorem sample_pagerank_spec_witness :
    ∃ dist samples,
      sample_pagerank corpusAB (17/20) 3 0 pickMin = some dist ∧
      sampleSteps corpusAB (17/20) pickMin (3 - 1) 0 0 = some samples ∧
      dist.keys = corpusAB.pages ∧
      ((0 : ℕ) :: samples).length = 3 ∧
      (∀ p ∈ corpusAB.pages,
        dist.val p = (((0 : ℕ) :: samples).count p : ℚ) / 3) ∧
      dist.total = 1 :=
  sample_pagerank_spec corpusAB (17/20) 3 0 pickMin (by decide) (by norm_num)
    (by decide) pickMin_mem

/-- C8: for every nonempty graph, every damping factor and every outcome
of the initial uniform random choice, `sample_pagerank` with `n = 1`
returns a dict giving the initially chosen page probability 1 and every
other page probability 0. -/
theorem sample_pagerank_n_one (corpus : Corpus α) (d : ℚ) (first : α)
    (pick : ℕ → ProbDict α → α) (hfirst : first ∈ corpus.pages) :
    ∃ dist, sample_pagerank corpus d 1 first pick = some dist ∧
      dist.keys = corpus.pages ∧ dist.val first = 1 ∧
      ∀ p, p ≠ first → dist.val p = 0 := by
  have hne : corpus.pages ≠ ∅ := Finset.ne_empty_of_mem hfirst
  refine ⟨⟨corpus.pages, fun p => (([first] : List α).count p : ℚ) / 1⟩,
    ?_, rfl, ?_, ?_⟩
  · simp only [sample_pagerank, if_neg hne]
    rfl
  · simp
  · intro p hp
    have h1 : ([first] : List α).count p = 0 :=
      List.count_eq_zero.mpr (by simpa using hp)
    simp [h1]

/-- Witness for C8 at a concrete input: `corpusAB`, damping 0.85, first
page 1. -/
theorem sample_pagerank_n_one_witness :
    ∃ dist, sample_pagerank corpusAB (17/20) 1 1 pickMin = some dist ∧
      dist.keys = corpusAB.pages ∧ dist.val 1 = 1 ∧
      ∀ p, p ≠ 1 → dist.val p = 0 :=
  sample_pagerank_n_one corpusAB (17/20) 1 pickMin (by decide)

/-- The in-place corpus fixup of `iterate_pagerank` (src/pagerank.py lines
126-129): every page of the corpus whose link set is empty gets the set of
all pages (captured as `pages = list(corpus.keys())` before the loop) as
its link set; all other entries are untouched.  The Python loop mutates
the caller's `corpus` dict, so this function is also the state of the
caller's graph after `iterate_pagerank` runs. -/
def fixCorpus (corpus : Corpus α) : Corpus α :=
  ⟨corpus.pages,
   fun p => if p ∈ corpus.pages ∧ corpus.out p = ∅ then corpus.pages
            else corpus.out p⟩

/-- The reverse link index of `iterate_pagerank` (src/pagerank.py lines
131-135), built from the fixed-up corpus: `linksOf corpus page` is the set
of pages that list `page` among their outbound links. -/
def linksOf (corpus : Corpus α) (page : α) : Finset α :=
  (fixCorpus corpus).pages.filter fun p => page ∈ (fixCorpus corpus).out p

/-- The constant `p_corpus = (1 - damping_factor) / len(corpus)` of
src/pagerank.py line 152. -/
def pCorpus (corpus : Corpus α) (damping_factor : ℚ) : ℚ :=
  (1 - damping_factor) / corpus.pages.card

/-- The link sum `p_link` of one loop body iteration (src/pagerank.py
lines 156-161), read from the vector `v`: the sum over the pages linking
to `p` of their value divided by their (fixed-up) outbound link count. -/
def pLink (corpus : Corpus α) (v : α → ℚ) (p : α) : ℚ :=
  ∑ lp in linksOf corpus p, v lp / ((fixCorpus corpus).out lp).card

/-- One synchronous (Jacobi) recomputation of the whole rank vector from
the previous vector `v`: every page `p` of the corpus gets
`p_corpus + damping_factor * p_link`, exactly the assignment `pr` of
src/pagerank.py line 162; pages outside the corpus are irrelevant and
mapped to 0. -/
def jacobiStep (corpus : Corpus α) (damping_factor : ℚ) (v : α → ℚ) :
    α → ℚ :=
  fun p => if p ∈ corpus.pages
           then pCorpus corpus damping_factor + damping_factor * pLink corpus v p
           else 0

/-- The initial rank vector (src/pagerank.py lines 143-144): `1/N` on
every page of the corpus. -/
def initVec (corpus : Corpus α) : α → ℚ :=
  fun p => if p ∈ corpus.pages then 1 / corpus.pages.card else 0

/-- The sequence of synchronously recomputed rank vectors: `jacobiVec k`
is the vector after `k` whole-vector recomputations starting from the
`1/N` initialization. -/
def jacobiVec (corpus : Corpus α) (damping_factor : ℚ) (k : ℕ) : α → ℚ :=
  (jacobiStep corpus damping_factor)^[k] (initVec corpus)

/-- The state of the convergence loop of `iterate_pagerank`: the two
alternating buffer dicts `probabilities` and `updated_probabilities`
(values meaningful on the corpus pages) and the pass counter `i`. -/
structure IterState (α : Type) where
  prob : α → ℚ
  upd : α → ℚ
  i : ℕ

/-- The buffer the loop body reads in the current pass: `probabilities`
when `i` is even, `updated_probabilities` when `i` is odd (src/pagerank.py
lines 158-161). -/
def readBuf (s : IterState α) : α → ℚ :=
  if s.i % 2 = 0 then s.prob else s.upd

/-- The buffer the loop body writes in the current pass:
`updated_probabilities` when `i` is even, `probabilities` when `i` is odd
(src/pagerank.py lines 165-168). -/
def writeBuf (s : IterState α) : α → ℚ :=
  if s.i % 2 = 0 then s.upd else s.prob

/-- One pass of the convergence loop body (src/pagerank.py lines 154-171):
every page of the corpus gets `p_corpus + damping_factor * p_link` written
into the parity-selected buffer, reading the other buffer, and the counter
is incremented.  Although the Python loop writes the buffer entry by
entry, it only ever reads the opposite buffer, so the pass equals one
whole-vector `jacobiStep` of the read buffer. -/
def iterBody (corpus : Corpus α) (damping_factor : ℚ) (s : IterState α) :
    IterState α :=
  let newv : α → ℚ := fun p =>
    if p ∈ corpus.pages
    then pCorpus corpus damping_factor +
           damping_factor * pLink corpus (readBuf s) p
    else writeBuf s p
  if s.i % 2 = 0 then ⟨s.prob, newv, s.i + 1⟩ else ⟨newv, s.upd, s.i + 1⟩

/-- The maximum of the per-page absolute differences between the two
buffers, `max(d.values())` for the dict `d` of src/pagerank.py lines
148 and 174 (the values are absolute values, hence nonnegative, so folding
`max` with base 0 computes the Python `max`). -/
def maxAbsDiff (corpus : Corpus α) (s : IterState α) : ℚ :=
  corpus.pages.fold max 0 fun k => |s.prob k - s.upd k|

/-- The convergence loop `while max(d.values()) > 0.001` of
src/pagerank.py lines 153-177, with explicit fuel: `none` means the loop
has not exited within `fuel` passes. -/
def iterLoop (corpus : Corpus α) (damping_factor : ℚ) :
    ℕ → IterState α → Option (IterState α)
  | 0, s => if maxAbsDiff corpus s > 1/1000 then none else some s
  | fuel + 1, s =>
    if maxAbsDiff corpus s > 1/1000
    then iterLoop corpus damping_factor fuel (iterBody corpus damping_factor s)
    else some s

/-- The initial loop state (src/pagerank.py lines 143-151):
`probabilities` at `1/N`, `updated_probabilities` at `float(0)`, counter
`i = 0`. -/
def initState (corpus : Corpus α) : IterState α :=
  ⟨initVec corpus, fun _ => 0, 0⟩

/-- Embedding of `iterate_pagerank(corpus, damping_factor)`
(src/pagerank.py lines 111-180).  The first component is the returned
`probabilities` dict (`none` models both the `ZeroDivisionError` raised by
`p_corpus = (1 - damping_factor) / len(corpus)` on an empty corpus and a
loop that has not exited within `fuel` passes); the second component is
the caller's corpus after the call, fixed up in place by lines 126-129. -/
def iterate_pagerank (corpus : Corpus α) (damping_factor : ℚ) (fuel : ℕ) :
    Option (ProbDict α) × Corpus α :=
  (if corpus.pages.card = 0 then none
   else (iterLoop corpus damping_factor fuel (initState corpus)).map
     fun s => ⟨corpus.pages, s.prob⟩,
   fixCorpus corpus)

/-- The empty corpus over ℕ. -/
def corpusEmpty : Corpus ℕ := ⟨∅, fun _ => ∅⟩

/-- C4 (evaluation at the failing input): on the empty corpus neither
estimator returns a result: `sample_pagerank` fails at
`random.choice(list(corpus.keys()))` (IndexError on the empty list) and
`iterate_pagerank` fails at `p_corpus = (1 - damping_factor) /
len(corpus)` (ZeroDivisionError); neither failure is an explicit
EmptyCorpus check. -/
theorem empty_corpus_crash :
    sample_pagerank corpusEmpty (17/20) 10 0 pickMin = none ∧
    (iterate_pagerank corpusEmpty (17/20) 10).1 = none := by
  constructor
  · rfl
  · rfl

/-- A loop state whose buffers differ by at most 0.001 on every page makes
the loop exit immediately with that state, for any fuel. -/
theorem iterLoop_exit (corpus : Corpus α) (d : ℚ) (s : IterState α)
    (h : ¬ maxAbsDiff corpus s > 1/1000) :
    ∀ fuel, iterLoop corpus d fuel s = some s := by
  intro fuel
  cases fuel with
  | zero =>
    simp only [iterLoop]
    rw [if_neg h]
  | succ f =>
    simp only [iterLoop]
    rw [if_neg h]

/-- A loop state whose buffers differ by more than 0.001 somewhere makes
the loop run one more pass. -/
theorem iterLoop_step (corpus : Corpus α) (d : ℚ) (s : IterState α)
    (fuel : ℕ) (h : maxAbsDiff corpus s > 1/1000) :
    iterLoop corpus d (fuel + 1) s =
      iterLoop corpus d fuel (iterBody corpus d s) := by
  simp only [iterLoop]
  rw [if_pos h]

/-- `maxAbsDiff` on the two-page corpus `corpusAB`, spelled out. -/
theorem maxAbsDiff_AB (s : IterState ℕ) :
    maxAbsDiff corpusAB s =
      max |s.prob 0 - s.upd 0| (max |s.prob 1 - s.upd 1| 0) := by
  rw [maxAbsDiff]
  rw [show corpusAB.pages = insert 0 {1} from rfl]
  rw [Finset.fold_insert (by decide)]
  rw [Finset.fold_singleton]

/-- The initial rank of each page of `corpusAB` is 1/2. -/
theorem initVec_AB (p : ℕ) (hp : p ∈ corpusAB.pages) :
    initVec corpusAB p = 1/2 := by
  rw [initVec, if_pos hp, show corpusAB.pages.card = 2 from by decide]
  norm_num

/-- The reverse link index of `corpusAB`: only the fixed-up dangling page
1 links to page 0. -/
theorem linksOf_AB_0 : linksOf corpusAB 0 = {1} := by decide

/-- The reverse link index of `corpusAB`: both pages link to page 1 after
fixup. -/
theorem linksOf_AB_1 : linksOf corpusAB 1 = insert 0 {1} := by decide

/-- The first pass of the loop on `corpusAB` with damping 1/250 writes
499/1000 for page 0. -/
theorem iterBody_AB_upd0 :
    (iterBody corpusAB (1/250) (initState corpusAB)).upd 0 = 499/1000 := by
  have h0 : (0:ℕ) ∈ corpusAB.pages := by decide
  show (if (0:ℕ) ∈ corpusAB.pages
    then pCorpus corpusAB (1/250) +
      (1/250) * pLink corpusAB (readBuf (initState corpusAB)) 0
    else writeBuf (initState corpusAB) 0) = 499/1000
  rw [if_pos h0]
  rw [show readBuf (initState corpusAB) = initVec corpusAB from rfl]
  rw [pLink, linksOf_AB_0, Finset.sum_singleton]
  rw [show ((fixCorpus corpusAB).out 1).card = 2 from by decide]
  rw [initVec_AB 1 (by decide)]
  rw [pCorpus, show corpusAB.pages.card = 2 from by decide]
  norm_num

/-- The first pass of the loop on `corpusAB` with damping 1/250 writes
501/1000 for page 1. -/
theorem iterBody_AB_upd1 :
    (iterBody corpusAB (1/250) (initState corpusAB)).upd 1 = 501/1000 := by
  have h1 : (1:ℕ) ∈ corpusAB.pages := by decide
  show (if (1:ℕ) ∈ corpusAB.pages
    then pCorpus corpusAB (1/250) +
      (1/250) * pLink corpusAB (readBuf (initState corpusAB)) 1
    else writeBuf (initState corpusAB) 1) = 501/1000
  rw [if_pos h1]
  rw [show readBuf (initState corpusAB) = initVec corpusAB from rfl]
  rw [pLink, linksOf_AB_1, Finset.sum_insert (by decide), Finset.sum_singleton]
  rw [show ((fixCorpus corpusAB).out 0).card = 1 from by decide]
  rw [show ((fixCorpus corpusAB).out 1).card = 2 from by decide]
  rw [initVec_AB 0 (by decide), initVec_AB 1 (by decide)]
  rw [pCorpus, show corpusAB.pages.card = 2 from by decide]
  norm_num

/-- The first pass on `corpusAB` leaves the `probabilities` buffer (the
read buffer of the even pass) untouched. -/
theorem iterBody_AB_prob :
    (iterBody corpusAB (1/250) (initState corpusAB)).prob =
      (initState corpusAB).prob := rfl

/-- On `corpusAB` with damping 1/250 the loop exits after exactly one
pass: the initial buffers differ by 1/2 > 0.001, and after one pass the
buffers differ by exactly 1/1000 ≤ 0.001. -/
theorem iterLoop_AB_run :
    iterLoop corpusAB (1/250) 2 (initState corpusAB) =
      some (iterBody corpusAB (1/250) (initState corpusAB)) := by
  have hc0 : maxAbsDiff corpusAB (initState corpusAB) > 1/1000 := by
    rw [maxAbsDiff_AB]
    rw [show (initState corpusAB).prob 0 = initVec corpusAB 0 from rfl]
    rw [show (initState corpusAB).prob 1 = initVec corpusAB 1 from rfl]
    rw [show (initState corpusAB).upd 0 = 0 from rfl]
    rw [show (initState corpusAB).upd 1 = 0 from rfl]
    rw [initVec_AB 0 (by decide), initVec_AB 1 (by decide)]
    norm_num [abs_of_nonneg]
  have hc1 : ¬ maxAbsDiff corpusAB
      (iterBody corpusAB (1/250) (initState corpusAB)) > 1/1000 := by
    rw [maxAbsDiff_AB]
    rw [show (iterBody corpusAB (1/250) (initState corpusAB)).prob 0
      = initVec corpusAB 0 from rfl]
    rw [show (iterBody corpusAB (1/250) (initState corpusAB)).prob 1
      = initVec corpusAB 1 from rfl]
    rw [iterBody_AB_upd0, iterBody_AB_upd1]
    rw [initVec_AB 0 (by decide), initVec_AB 1 (by decide)]
    norm_num [abs_of_nonneg, abs_sub_comm]
  rw [iterLoop_step _ _ _ _ hc0]
  exact iterLoop_exit _ _ _ hc1 1

/-- C3 counterexample: `iterate_pagerank` does NOT leave the caller's
graph unchanged.  On the corpus 0 → {1}, 1 → ∅ with damping 1/250 the
call returns normally (the loop exits after one pass), yet afterwards the
caller's graph maps page 1 to {0, 1} instead of the original ∅. -/
theorem iterate_mutates_corpus_counterexample :
    (iterate_pagerank corpusAB (1/250) 2).1.isSome = true ∧
    (iterate_pagerank corpusAB (1/250) 2).2.out 1 ≠ corpusAB.out 1 := by
  constructor
  · simp only [iterate_pagerank]
    rw [if_neg (show ¬ corpusAB.pages.card = 0 from by decide)]
    rw [iterLoop_AB_run]
    rfl
  · decide

/-- C3 amended: `iterate_pagerank` mutates the caller's graph in place:
after the call the graph has the same pages, every page that had an empty
link set now links to every page of the graph, and every other entry is
unchanged (so the graph is unchanged only when no page was dangling). -/
theorem iterate_corpus_effect_spec (corpus : Corpus α) (d : ℚ) (fuel : ℕ) :
    (iterate_pagerank corpus d fuel).2.pages = corpus.pages ∧
    (∀ p, p ∈ corpus.pages →
      (iterate_pagerank corpus d fuel).2.out p =
        (if corpus.out p = ∅ then corpus.pages else corpus.out p)) ∧
    (∀ p, p ∉ corpus.pages →
      (iterate_pagerank corpus d fuel).2.out p = corpus.out p) := by
  refine ⟨rfl, ?_, ?_⟩
  · intro p hp
    by_cases hz : corpus.out p = ∅
    · simp [iterate_pagerank, fixCorpus, hp, hz]
    · simp [iterate_pagerank, fixCorpus, hp, hz]
  · intro p hp
    simp [iterate_pagerank, fixCorpus, hp]

/-- Witness for amended C3 at a concrete input: after calling
`iterate_pagerank` on `corpusAB`, the dangling page 1 links to all
pages. -/
theorem iterate_corpus_effect_spec_witness :
    (iterate_pagerank corpusAB (17/20) 1).2.out 1 =
      (if corpusAB.out 1 = ∅ then corpusAB.pages else corpusAB.out 1) :=
  (iterate_corpus_effect_spec corpusAB (17/20) 1).2.1 1 (by decide)

/-- The one-page corpus with no outbound links (a single page whose
self-link was removed). -/
def singletonCorpus (p : α) : Corpus α := ⟨{p}, fun _ => ∅⟩

/-- C7: on a single-page graph whose page has zero outbound links,
`iterate_pagerank` terminates (one pass, so any positive fuel) and
returns the rank vector mapping the page to exactly 1; the dangling-page
fixup makes the page link to every page of the graph, i.e. to itself. -/
theorem iterate_single_page (p : α) (d : ℚ) (fuel : ℕ) (hf : 1 ≤ fuel) :
    (fixCorpus (singletonCorpus p)).out p = {p} ∧
    ∃ dist, (iterate_pagerank (singletonCorpus p) d fuel).1 = some dist ∧
      dist.keys = {p} ∧ dist.val p = 1 := by
  have hmem : p ∈ (singletonCorpus p).pages := Finset.mem_singleton_self p
  have hcard : (singletonCorpus p).pages.card = 1 := Finset.card_singleton p
  constructor
  · simp [fixCorpus, singletonCorpus]
  · have hprob : (initState (singletonCorpus p)).prob p = 1 := by
      simp [initState, initVec, singletonCorpus]
    have hcond0 : maxAbsDiff (singletonCorpus p) (initState (singletonCorpus p))
        > 1/1000 := by
      have : maxAbsDiff (singletonCorpus p) (initState (singletonCorpus p))
          = 1 := by
        simp [maxAbsDiff, initState, initVec, singletonCorpus,
          Finset.fold_singleton]
      rw [this]
      norm_num
    have hlinks : linksOf (singletonCorpus p) p = {p} := by
      simp [linksOf, fixCorpus, singletonCorpus, Finset.filter_singleton]
    have hupd1 : (iterBody (singletonCorpus p) d
        (initState (singletonCorpus p))).upd p = 1 := by
      show (if p ∈ (singletonCorpus p).pages
        then pCorpus (singletonCorpus p) d +
          d * pLink (singletonCorpus p)
            (readBuf (initState (singletonCorpus p))) p
        else writeBuf (initState (singletonCorpus p)) p) = 1
      rw [if_pos hmem]
      rw [show readBuf (initState (singletonCorpus p))
        = initVec (singletonCorpus p) from rfl]
      rw [pLink, hlinks, Finset.sum_singleton]
      rw [show ((fixCorpus (singletonCorpus p)).out p).card = 1 from by
        simp [fixCorpus, singletonCorpus]]
      rw [show initVec (singletonCorpus p) p = 1 from by
        simp [initVec, singletonCorpus]]
      rw [pCorpus, hcard]
      push_cast
      ring
    have hbody : iterBody (singletonCorpus p) d (initState (singletonCorpus p))
        = ⟨(initState (singletonCorpus p)).prob,
           (iterBody (singletonCorpus p) d (initState (singletonCorpus p))).upd,
           1⟩ := by
      simp only [iterBody, initState]
      rfl
    have hprob1 : (iterBody (singletonCorpus p) d
        (initState (singletonCorpus p))).prob p = 1 := by
      rw [hbody]
      exact hprob
    have hcond1 : ¬ maxAbsDiff (singletonCorpus p)
        (iterBody (singletonCorpus p) d (initState (singletonCorpus p)))
        > 1/1000 := by
      have : maxAbsDiff (singletonCorpus p)
          (iterBody (singletonCorpus p) d (initState (singletonCorpus p)))
          = 0 := by
        rw [maxAbsDiff]
        rw [show (singletonCorpus p).pages = {p} from rfl]
        rw [Finset.fold_singleton]
        rw [hprob1, hupd1]
        norm_num
      rw [this]
      norm_num
    obtain ⟨f, rfl⟩ : ∃ f, fuel = f + 1 := ⟨fuel - 1, by omega⟩
    refine ⟨⟨{p}, (initState (singletonCorpus p)).prob⟩, ?_, rfl, hprob⟩
    have hrun : iterLoop (singletonCorpus p) d (f + 1)
        (initState (singletonCorpus p)) =
        some (iterBody (singletonCorpus p) d (initState (singletonCorpus p))) := by
      rw [iterLoop_step _ _ _ _ hcond0]
      exact iterLoop_exit _ _ _ hcond1 f
    have hcard0 : ¬ (singletonCorpus p).pages.card = 0 := by
      rw [hcard]; omega
    simp only [iterate_pagerank, if_neg hcard0, hrun, Option.map]
    have hpr : (iterBody (singletonCorpus p) d
        (initState (singletonCorpus p))).prob =
        (initState (singletonCorpus p)).prob := by
      rw [hbody]
    rw [hpr]
    rfl

/-- Witness for C7 at a concrete input: page 0, damping 0.85, fuel 2. -/
theorem iterate_single_page_witness :
    (fixCorpus (singletonCorpus 0)).out 0 = {0} ∧
    ∃ dist, (iterate_pagerank (singletonCorpus (0 : ℕ)) (17/20) 2).1
        = some dist ∧ dist.keys = {0} ∧ dist.val 0 = 1 :=
  iterate_single_page 0 (17/20) 2 (by omega)

/-- C10: for a graph with at least 1000 pages, the initial difference
dict of `iterate_pagerank` is already bounded by 1/N ≤ 0.001, so the
`while` loop performs no pass at all and the uniform `1/N`
initialization vector is returned unchanged. -/
theorem iterate_large_corpus_no_iteration (c : Corpus α) (d : ℚ) (fuel : ℕ)
    (hN : 1000 ≤ c.pages.card) :
    iterLoop c d fuel (initState c) = some (initState c) ∧
    ∃ dist, (iterate_pagerank c d fuel).1 = some dist ∧
      dist.keys = c.pages ∧
      ∀ p ∈ c.pages, dist.val p = 1 / c.pages.card := by
  have hcast : (1000 : ℚ) ≤ c.pages.card := by exact_mod_cast hN
  have hcond : ¬ maxAbsDiff c (initState c) > 1/1000 := by
    rw [not_lt, maxAbsDiff, Finset.fold_max_le]
    constructor
    · norm_num
    · intro x hx
      have hxval : (initState c).prob x = 1 / c.pages.card := by
        rw [show (initState c).prob = initVec c from rfl, initVec, if_pos hx]
      rw [hxval, show (initState c).upd x = 0 from rfl, sub_zero]
      rw [abs_of_nonneg (by positivity)]
      exact one_div_le_one_div_of_le (by norm_num) hcast
  have hexit := iterLoop_exit c d (initState c) hcond fuel
  refine ⟨hexit, ⟨c.pages, (initState c).prob⟩, ?_, rfl, ?_⟩
  · simp only [iterate_pagerank]
    rw [if_neg (show ¬ c.pages.card = 0 from by omega)]
    rw [hexit]
    rfl
  · intro p hp
    rw [show (initState c).prob = initVec c from rfl]
    simp only [initVec]
    rw [if_pos hp]

/-- A 1000-page corpus with no links at all. -/
def corpus1000 : Corpus ℕ := ⟨Finset.range 1000, fun _ => ∅⟩

/-- Witness for C10 at a concrete input: the 1000-page corpus. -/
theorem iterate_large_corpus_no_iteration_witness :
    iterLoop corpus1000 (17/20) 3 (initState corpus1000)
      = some (initState corpus1000) ∧
    ∃ dist, (iterate_pagerank corpus1000 (17/20) 3).1 = some dist ∧
      dist.keys = corpus1000.pages ∧
      ∀ p ∈ corpus1000.pages, dist.val p = 1 / corpus1000.pages.card :=
  iterate_large_corpus_no_iteration corpus1000 (17/20) 3
    (by simp [corpus1000])

/-- The value of the Python difference dict `d` after `k` passes of the
loop: the maximum over the pages of the absolute difference between the
vector computed by pass `k` and the previous one (for `k = 0`, between
the `1/N` initialization and the all-zeros `updated_probabilities`). -/
def diffAt (corpus : Corpus α) (d : ℚ) (k : ℕ) : ℚ :=
  corpus.pages.fold max 0 fun p =>
    |jacobiVec corpus d k p -
      (if k = 0 then 0 else jacobiVec corpus d (k-1) p)|

/-- `pLink` only reads the vector on pages of the corpus. -/
theorem pLink_congr (c : Corpus α) {u v : α → ℚ}
    (h : ∀ p ∈ c.pages, u p = v p) (q : α) :
    pLink c u q = pLink c v q := by
  unfold pLink
  refine Finset.sum_congr rfl ?_
  intro lp hlp
  have hmem : lp ∈ c.pages := (Finset.mem_filter.mp hlp).1
  rw [h lp hmem]

/-- Each pass increments the pass counter. -/
theorem iterBody_i (c : Corpus α) (d : ℚ) (s : IterState α) :
    (iterBody c d s).i = s.i + 1 := by
  unfold iterBody
  by_cases h : s.i % 2 = 0
  · rw [if_pos h]
  · rw [if_neg h]

/-- Unfolding of one step of the synchronous recomputation sequence at a
page of the corpus. -/
theorem jacobiVec_succ (c : Corpus α) (d : ℚ) (k : ℕ) (p : α)
    (hp : p ∈ c.pages) :
    jacobiVec c d (k + 1) p =
      pCorpus c d + d * pLink c (jacobiVec c d k) p := by
  rw [jacobiVec, Function.iterate_succ_apply']
  rw [show (jacobiStep c d) ((jacobiStep c d)^[k] (initVec c)) p =
    (if p ∈ c.pages
     then pCorpus c d + d * pLink c ((jacobiStep c d)^[k] (initVec c)) p
     else 0) from rfl]
  rw [if_pos hp]
  rfl

/-- The loop invariant tying the two alternating buffers to the sequence
of synchronously recomputed vectors: after `i` passes the buffer to be
read holds the `i`-th vector and the buffer to be written holds the
previous one (the all-zeros dict before the first pass). -/
def loopInv (c : Corpus α) (d : ℚ) (s : IterState α) : Prop :=
  (∀ p ∈ c.pages, readBuf s p = jacobiVec c d s.i p) ∧
  (∀ p ∈ c.pages, writeBuf s p =
    if s.i = 0 then 0 else jacobiVec c d (s.i - 1) p)

/-- The invariant holds initially. -/
theorem loopInv_init (c : Corpus α) (d : ℚ) :
    loopInv c d (initState c) := by
  constructor
  · intro p _
    rfl
  · intro p _
    rfl

/-- One pass of the loop body preserves the invariant: the written buffer
becomes the next vector of the synchronous recomputation sequence. -/
theorem loopInv_body (c : Corpus α) (d : ℚ) (s : IterState α)
    (h : loopInv c d s) : loopInv c d (iterBody c d s) := by
  obtain ⟨hr, hw⟩ := h
  by_cases hpar : s.i % 2 = 0
  · have hbody : iterBody c d s =
        ⟨s.prob,
         fun p => if p ∈ c.pages
           then pCorpus c d + d * pLink c (readBuf s) p
           else writeBuf s p,
         s.i + 1⟩ := by
      unfold iterBody
      rw [if_pos hpar]
    have hpar' : ¬ (s.i + 1) % 2 = 0 := by omega
    constructor
    · intro p hp
      rw [hbody]
      simp only [readBuf]
      rw [if_neg hpar']
      simp only [if_pos hp]
      have hr' : ∀ q ∈ c.pages,
          (if s.i % 2 = 0 then s.prob else s.upd) q = jacobiVec c d s.i q := by
        simpa only [readBuf] using hr
      rw [pLink_congr c hr' p]
      exact (jacobiVec_succ c d s.i p hp).symm
    · intro p hp
      rw [hbody]
      simp only [writeBuf]
      rw [if_neg hpar']
      rw [if_neg (Nat.succ_ne_zero s.i), Nat.add_sub_cancel]
      have := hr p hp
      simp only [readBuf] at this
      rwa [if_pos hpar] at this
  · have hbody : iterBody c d s =
        ⟨fun p => if p ∈ c.pages
           then pCorpus c d + d * pLink c (readBuf s) p
           else writeBuf s p,
         s.upd,
         s.i + 1⟩ := by
      unfold iterBody
      rw [if_neg hpar]
    have hpar' : (s.i + 1) % 2 = 0 := by omega
    constructor
    · intro p hp
      rw [hbody]
      simp only [readBuf]
      rw [if_pos hpar']
      simp only [if_pos hp]
      have hr' : ∀ q ∈ c.pages,
          (if s.i % 2 = 0 then s.prob else s.upd) q = jacobiVec c d s.i q := by
        simpa only [readBuf] using hr
      rw [pLink_congr c hr' p]
      exact (jacobiVec_succ c d s.i p hp).symm
    · intro p hp
      rw [hbody]
      simp only [writeBuf]
      rw [if_pos hpar']
      rw [if_neg (Nat.succ_ne_zero s.i), Nat.add_sub_cancel]
      have := hr p hp
      simp only [readBuf] at this
      rwa [if_neg hpar] at this

/-- Under the invariant, the Python `max(d.values())` after `i` passes is
the maximum distance between the `i`-th recomputed vector and its
predecessor. -/
theorem maxAbsDiff_eq_diffAt (c : Corpus α) (d : ℚ) (s : IterState α)
    (h : loopInv c d s) : maxAbsDiff c s = diffAt c d s.i := by
  obtain ⟨hr, hw⟩ := h
  unfold maxAbsDiff diffAt
  refine Finset.fold_congr ?_
  intro p hp
  by_cases hpar : s.i % 2 = 0
  · have h1 : s.prob p = jacobiVec c d s.i p := by
      have := hr p hp
      simp only [readBuf] at this
      rwa [if_pos hpar] at this
    have h2 : s.upd p =
        (if s.i = 0 then 0 else jacobiVec c d (s.i - 1) p) := by
      have := hw p hp
      simp only [writeBuf] at this
      rwa [if_pos hpar] at this
    rw [h1, h2]
  · have h1 : s.upd p = jacobiVec c d s.i p := by
      have := hr p hp
      simp only [readBuf] at this
      rwa [if_neg hpar] at this
    have h2 : s.prob p =
        (if s.i = 0 then 0 else jacobiVec c d (s.i - 1) p) := by
      have := hw p hp
      simp only [writeBuf] at this
      rwa [if_neg hpar] at this
    rw [h1, h2, abs_sub_comm]

/-- The convergence loop, started from a state satisfying the invariant
whose history of differences exceeded the threshold, exits in a state
satisfying the invariant, at the first pass count whose difference is at
most 0.001. -/
theorem iterLoop_jacobi (c : Corpus α) (d : ℚ) :
    ∀ (fuel : ℕ) (s s' : IterState α), loopInv c d s →
      (∀ j < s.i, diffAt c d j > 1/1000) →
      iterLoop c d fuel s = some s' →
      loopInv c d s' ∧ diffAt c d s'.i ≤ 1/1000 ∧
        ∀ j < s'.i, diffAt c d j > 1/1000 := by
  intro fuel
  induction fuel with
  | zero =>
    intro s s' hinv hhist hrun
    simp only [iterLoop] at hrun
    by_cases hc : maxAbsDiff c s > 1/1000
    · rw [if_pos hc] at hrun
      exact absurd hrun (by simp)
    · rw [if_neg hc] at hrun
      obtain rfl : s = s' := by injection hrun
      refine ⟨hinv, ?_, hhist⟩
      rw [← maxAbsDiff_eq_diffAt c d s hinv]
      exact not_lt.mp hc
  | succ f ih =>
    intro s s' hinv hhist hrun
    by_cases hc : maxAbsDiff c s > 1/1000
    · rw [iterLoop_step c d s f hc] at hrun
      have hinv' := loopInv_body c d s hinv
      have hi : (iterBody c d s).i = s.i + 1 := iterBody_i c d s
      refine ih (iterBody c d s) s' hinv' ?_ hrun
      rw [hi]
      intro j hj
      rcases Nat.lt_succ_iff_lt_or_eq.mp hj with h | h
      · exact hhist j h
      · subst h
        rw [← maxAbsDiff_eq_diffAt c d s hinv]
        exact hc
    · rw [iterLoop_exit c d s hc (f + 1)] at hrun
      obtain rfl : s = s' := by injection hrun
      refine ⟨hinv, ?_, hhist⟩
      rw [← maxAbsDiff_eq_diffAt c d s hinv]
      exact not_lt.mp hc

/-- C2 amended: whenever the convergence loop of `iterate_pagerank`
terminates, the whole rank vector has been recomputed synchronously from
the previous iteration's values each pass (the vectors are the iterates
of the pure whole-vector map `jacobiStep`), the loop exits at the first
pass count `k = s.i` whose maximum absolute per-page change is at most
0.001 — and the dict returned is the vector of pass `2*(k/2)` (rounding
the pass count down to an even number): the most recently computed vector
when `k` is even, but the previous one when `k` is odd. -/
theorem iterate_pagerank_jacobi (c : Corpus α) (d : ℚ) (fuel : ℕ)
    (s : IterState α) (hcard : ¬ c.pages.card = 0)
    (hrun : iterLoop c d fuel (initState c) = some s) :
    (iterate_pagerank c d fuel).1 = some ⟨c.pages, s.prob⟩ ∧
    (∀ p ∈ c.pages, s.prob p = jacobiVec c d (2 * (s.i / 2)) p) ∧
    diffAt c d s.i ≤ 1/1000 ∧
    (∀ j < s.i, diffAt c d j > 1/1000) := by
  have hstart := loopInv_init c d
  have h := iterLoop_jacobi c d fuel (initState c) s hstart
    (fun j hj => absurd hj (Nat.not_lt_zero j)) hrun
  obtain ⟨⟨hr, hw⟩, hle, hhist⟩ := h
  refine ⟨?_, ?_, hle, hhist⟩
  · simp only [iterate_pagerank]
    rw [if_neg hcard, hrun]
    rfl
  · intro p hp
    by_cases hpar : s.i % 2 = 0
    · have h1 : s.prob p = jacobiVec c d s.i p := by
        have := hr p hp
        simp only [readBuf] at this
        rwa [if_pos hpar] at this
      rw [h1]
      congr 1
      omega
    · have h1 : s.prob p =
          (if s.i = 0 then 0 else jacobiVec c d (s.i - 1) p) := by
        have := hw p hp
        simp only [writeBuf] at this
        rwa [if_neg hpar] at this
      have hne : ¬ s.i = 0 := by omega
      rw [h1, if_neg hne]
      congr 1
      omega

/-- The first pass of the loop on `corpusAB` with damping 1/500 writes
999/2000 for page 0. -/
theorem iterBody_AB500_upd0 :
    (iterBody corpusAB (1/500) (initState corpusAB)).upd 0 = 999/2000 := by
  have h0 : (0:ℕ) ∈ corpusAB.pages := by decide
  show (if (0:ℕ) ∈ corpusAB.pages
    then pCorpus corpusAB (1/500) +
      (1/500) * pLink corpusAB (readBuf (initState corpusAB)) 0
    else writeBuf (initState corpusAB) 0) = 999/2000
  rw [if_pos h0]
  rw [show readBuf (initState corpusAB) = initVec corpusAB from rfl]
  rw [pLink, linksOf_AB_0, Finset.sum_singleton]
  rw [show ((fixCorpus corpusAB).out 1).card = 2 from by decide]
  rw [initVec_AB 1 (by decide)]
  rw [pCorpus, show corpusAB.pages.card = 2 from by decide]
  norm_num

/-- The first pass of the loop on `corpusAB` with damping 1/500 writes
1001/2000 for page 1. -/
theorem iterBody_AB500_upd1 :
    (iterBody corpusAB (1/500) (initState corpusAB)).upd 1 = 1001/2000 := by
  have h1 : (1:ℕ) ∈ corpusAB.pages := by decide
  show (if (1:ℕ) ∈ corpusAB.pages
    then pCorpus corpusAB (1/500) +
      (1/500) * pLink corpusAB (readBuf (initState corpusAB)) 1
    else writeBuf (initState corpusAB) 1) = 1001/2000
  rw [if_pos h1]
  rw [show readBuf (initState corpusAB) = initVec corpusAB from rfl]
  rw [pLink, linksOf_AB_1, Finset.sum_insert (by decide), Finset.sum_singleton]
  rw [show ((fixCorpus corpusAB).out 0).card = 1 from by decide]
  rw [show ((fixCorpus corpusAB).out 1).card = 2 from by decide]
  rw [initVec_AB 0 (by decide), initVec_AB 1 (by decide)]
  rw [pCorpus, show corpusAB.pages.card = 2 from by decide]
  norm_num

/-- The first pass on `corpusAB` with damping 1/500 leaves the
`probabilities` buffer (the read buffer of the even pass) untouched. -/
theorem iterBody_AB500_prob :
    (iterBody corpusAB (1/500) (initState corpusAB)).prob =
      (initState corpusAB).prob := rfl

/-- After the first pass on `corpusAB` with damping 1/500 the two buffers
differ by exactly 1/2000 — half the 0.001 exit threshold, so the exit
comparison has a twofold margin and is in particular not a rounding
tie. -/
theorem maxAbsDiff_AB500 :
    maxAbsDiff corpusAB (iterBody corpusAB (1/500) (initState corpusAB))
      = 1/2000 := by
  rw [maxAbsDiff_AB]
  rw [show (iterBody corpusAB (1/500) (initState corpusAB)).prob 0
    = initVec corpusAB 0 from rfl]
  rw [show (iterBody corpusAB (1/500) (initState corpusAB)).prob 1
    = initVec corpusAB 1 from rfl]
  rw [iterBody_AB500_upd0, iterBody_AB500_upd1]
  rw [initVec_AB 0 (by decide), initVec_AB 1 (by decide)]
  rw [show |(1:ℚ)/2 - 999/2000| = 1/2000 from by
    rw [abs_of_nonneg (by norm_num)]
    norm_num]
  rw [show |(1:ℚ)/2 - 1001/2000| = 1/2000 from by
    rw [abs_sub_comm, abs_of_nonneg (by norm_num)]
    norm_num]
  rw [max_eq_left (by norm_num : (0:ℚ) ≤ 1/2000), max_self]

/-- On `corpusAB` with damping 1/500 the loop exits after exactly one
pass: the initial buffers differ by 1/2 > 0.001, and after one pass the
buffers differ by exactly 1/2000 < 0.001. -/
theorem iterLoop_AB500_run :
    iterLoop corpusAB (1/500) 2 (initState corpusAB) =
      some (iterBody corpusAB (1/500) (initState corpusAB)) := by
  have hc0 : maxAbsDiff corpusAB (initState corpusAB) > 1/1000 := by
    rw [maxAbsDiff_AB]
    rw [show (initState corpusAB).prob 0 = initVec corpusAB 0 from rfl]
    rw [show (initState corpusAB).prob 1 = initVec corpusAB 1 from rfl]
    rw [show (initState corpusAB).upd 0 = 0 from rfl]
    rw [show (initState corpusAB).upd 1 = 0 from rfl]
    rw [initVec_AB 0 (by decide), initVec_AB 1 (by decide)]
    norm_num [abs_of_nonneg]
  have hc1 : ¬ maxAbsDiff corpusAB
      (iterBody corpusAB (1/500) (initState corpusAB)) > 1/1000 := by
    rw [maxAbsDiff_AB500]
    norm_num
  rw [iterLoop_step _ _ _ _ hc0]
  exact iterLoop_exit _ _ _ hc1 1

/-- Witness for amended C2 at a concrete input: `corpusAB`, damping
1/500, fuel 2, where the loop exits after one pass. -/
theorem iterate_pagerank_jacobi_witness :
    (iterate_pagerank corpusAB (1/500) 2).1
      = some ⟨corpusAB.pages,
          (iterBody corpusAB (1/500) (initState corpusAB)).prob⟩ ∧
    (∀ p ∈ corpusAB.pages,
      (iterBody corpusAB (1/500) (initState corpusAB)).prob p =
        jacobiVec corpusAB (1/500)
          (2 * ((iterBody corpusAB (1/500) (initState corpusAB)).i / 2)) p) ∧
    diffAt corpusAB (1/500)
      (iterBody corpusAB (1/500) (initState corpusAB)).i ≤ 1/1000 ∧
    (∀ j < (iterBody corpusAB (1/500) (initState corpusAB)).i,
      diffAt corpusAB (1/500) j > 1/1000) :=
  iterate_pagerank_jacobi corpusAB (1/500) 2
    (iterBody corpusAB (1/500) (initState corpusAB)) (by decide)
    iterLoop_AB500_run

/-- C2 counterexample: on the corpus 0 → {1}, 1 → ∅ with damping 1/500
the loop exits after exactly one pass, so the most recently computed
vector is the pass-1 vector, which gives page 0 the value
999/2000 = 0.4995; but the returned dict is the untouched
`probabilities` buffer, still holding the initial value 1/2 at page 0.
`iterate_pagerank` therefore does NOT return the most recently computed
vector.  The exit comparison is robust against the float arithmetic of
the original program: the post-pass difference is exactly 1/2000, half
the 0.001 threshold, so IEEE-double rounding (a few ulps) cannot flip
the comparison — the double-precision run likewise performs exactly one
pass and returns {0.5, 0.5} while the most recently computed vector is
{0.4995, 0.5005}. -/
theorem iterate_return_parity_counterexample :
    (iterLoop corpusAB (1/500) 2 (initState corpusAB)).map (fun s => s.i)
      = some 1 ∧
    maxAbsDiff corpusAB (iterBody corpusAB (1/500) (initState corpusAB))
      = 1/2000 ∧
    (iterate_pagerank corpusAB (1/500) 2).1
      = some ⟨corpusAB.pages, (initState corpusAB).prob⟩ ∧
    (initState corpusAB).prob 0 = 1/2 ∧
    jacobiVec corpusAB (1/500) 1 0 = 999/2000 ∧
    (1/2 : ℚ) ≠ 999/2000 := by
  refine ⟨?_, maxAbsDiff_AB500, ?_, ?_, ?_, by norm_num⟩
  · rw [iterLoop_AB500_run]
    rfl
  · simp only [iterate_pagerank]
    rw [if_neg (show ¬ corpusAB.pages.card = 0 from by decide)]
    rw [iterLoop_AB500_run]
    rfl
  · exact initVec_AB 0 (by decide)
  · rw [jacobiVec, Function.iterate_one]
    show (if (0:ℕ) ∈ corpusAB.pages
      then pCorpus corpusAB (1/500) +
        (1/500) * pLink corpusAB (initVec corpusAB) 0
      else 0) = 999/2000
    rw [if_pos (show (0:ℕ) ∈ corpusAB.pages from by decide)]
    rw [pLink, linksOf_AB_0, Finset.sum_singleton]
    rw [show ((fixCorpus corpusAB).out 1).card = 2 from by decide]
    rw [initVec_AB 1 (by decide)]
    rw [pCorpus, show corpusAB.pages.card = 2 from by decide]
    norm_num
